import Mathlib

/-!
Verification of the pattern-matching engine in `adt.py`
(PyAlgebraicDataTypes).

The embedding models the fragment of the Python value universe the
matcher operates on: integers, strings, `None`, `Binding` /
`BindingRest` (subclasses of `str`), bare Variant classes used as
constructor patterns, Variant instances (namedtuples), mappings
(`dict` / `OrderedDict`, with string keys), and sequences (lists).
Regular-expression patterns and Python `ast` node patterns are outside
the embedded fragment (spec §9 explicitly sanctions omitting regex
support; AST nodes belong to the out-of-scope collaborator).

Python generators are modelled by the list of elements they yield; the
private `sentinel = object()` end marker used by the sequence matcher
is modelled by the dedicated constructor `Val.sentinel`.
-/

namespace ADT

/-- A Variant class: its name together with its ordered `_fields`
    (as produced by `AlgebraicMeta.__new__` from the class body).
    Class identity is modelled by this data. -/
structure Variant where
  name : String
  fields : List String
deriving DecidableEq, Repr

/-- The embedded Python value universe.  Patterns and values share it,
    exactly as in the Python code. -/
inductive Val where
  /-- an `int` literal -/
  | vint : Int → Val
  /-- a plain `str` (not a `Binding`) -/
  | vstr : String → Val
  /-- `None` -/
  | vnone : Val
  /-- the private `object()` end marker of `MatchVisitor.sequence` -/
  | sentinel : Val
  /-- a `Binding(name)`; `Binding` subclasses `str` -/
  | binding : String → Val
  /-- a `BindingRest(name)`; subclass of `Binding` -/
  | bindingRest : String → Val
  /-- a bare Variant class object (a `type` subclassing `ADT`
      carrying `_fields`) -/
  | adtCtor : Variant → Val
  /-- a Variant instance: a namedtuple of its field values -/
  | adtInst : Variant → List Val → Val
  /-- a mapping; the flag is `true` for `OrderedDict`, `false` for a
      plain `dict`; entries are in insertion order -/
  | vmap : Bool → List (String × Val) → Val
  /-- a sequence (`list` / `tuple`) -/
  | vseq : List Val → Val

namespace Val

/-- `isinstance(x, Binding)` — `BindingRest` subclasses `Binding`. -/
def isBindingV : Val → Bool
  | .binding _ | .bindingRest _ => true
  | _ => false

/-- `isinstance(x, BindingRest)`. -/
def isRestB : Val → Bool
  | .bindingRest _ => true
  | _ => false

/-- `isinstance(x, type) and issubclass(x, ADT)` for a Variant class. -/
def isADTTypeV : Val → Bool
  | .adtCtor _ => true
  | _ => false

/-- `isinstance(x, ADT)`: a Variant instance. -/
def isADTInstV : Val → Bool
  | .adtInst _ _ => true
  | _ => false

/-- `isinstance(x, str)` — `Binding` and `BindingRest` are `str`s. -/
def isStrV : Val → Bool
  | .vstr _ | .binding _ | .bindingRest _ => true
  | _ => false

/-- `hasattr(x, 'keys') and hasattr(x, 'values')`: map-like objects. -/
def isMapLike : Val → Bool
  | .vmap _ _ => true
  | _ => false

/-- `hasattr(x, '__iter__')`: strings (hence Bindings), lists,
    dicts and namedtuples are iterable; ints, `None`, class objects
    and the sentinel are not. -/
def hasIter : Val → Bool
  | .vstr _ | .binding _ | .bindingRest _ | .vseq _ | .vmap _ _
  | .adtInst _ _ => true
  | _ => false

/-- The elements produced by `iter(x)`: a string yields its characters
    (as plain one-character `str`s), a dict yields its keys, a
    namedtuple its field values, a list its elements. -/
def iterList : Val → List Val
  | .vstr s => s.data.map (fun c => .vstr (String.mk [c]))
  | .binding s => s.data.map (fun c => .vstr (String.mk [c]))
  | .bindingRest s => s.data.map (fun c => .vstr (String.mk [c]))
  | .vseq l => l
  | .vmap _ es => es.map (fun e => .vstr e.1)
  | .adtInst _ args => args
  | _ => []

/-- `key in value` for a map-like value. -/
def containsKey : Val → String → Bool
  | .vmap _ es, k => es.any (fun e => e.1 == k)
  | _, _ => false

/-- `value[key]` for a map-like value (first entry wins; Python dicts
    cannot hold duplicate keys).  The `.vnone` default is only reached
    outside the dict domain. -/
def getVal : Val → String → Val
  | .vmap _ es, k =>
      match es.find? (fun e => e.1 == k) with
      | some e => e.2
      | none => .vnone
  | _, _ => .vnone

/-- The underlying `str` of a string-like value (`str`, `Binding`,
    `BindingRest`). -/
def strVal? : Val → Option String
  | .vstr s => some s
  | .binding s => some s
  | .bindingRest s => some s
  | _ => none

end Val

/-- Python `==` restricted to the comparisons the `literal` handler can
    actually perform.  Patterns classified as literals are ints, plain
    strings and `None` (maps and sequences are routed to their own
    handlers before the literal fallback), so structural equality of
    containers is unreachable here; `Binding`s compare to strings by
    their underlying text since `Binding` subclasses `str`. -/
def pyEq : Val → Val → Bool
  | .vint a, .vint b => a == b
  | .vnone, .vnone => true
  | .adtCtor a, .adtCtor b => a == b
  | a, b =>
      match a.strVal?, b.strVal? with
      | some s, some t => s == t
      | _, _ => false

/-- `Binding.bind`: a bound value is a one-entry pair list, the empty
    (wildcard) name binds nothing. -/
def bindName (s : String) (v : Val) : List (String × Val) :=
  if s = "" then [] else [(s, v)]

/-- Python `str` `<` on character lists: lexicographic comparison by
    code point (the order `sorted` uses on string keys). -/
def chLt : List Char → List Char → Bool
  | [], [] => false
  | [], _ :: _ => true
  | _ :: _, [] => false
  | c :: cs, d :: ds =>
      if c.toNat < d.toNat then true
      else if d.toNat < c.toNat then false
      else chLt cs ds

/-- Python `str` `<`. -/
def strLt (a b : String) : Bool := chLt a.data b.data

/-- Stable insertion into a key-sorted entry list (Python `sorted` over
    the keys of a `dict`; dict keys are unique, so iterating entries
    sorted by key coincides with iterating sorted keys and looking each
    one up). -/
def insertE (e : String × Val) : List (String × Val) → List (String × Val)
  | [] => [e]
  | x :: xs => if strLt e.1 x.1 then e :: x :: xs else x :: insertE e xs

/-- Sort a mapping's entries by key (`sorted(map.keys())` in
    `MatchVisitor.mapping` for a non-`OrderedDict`). -/
def sortEntries (es : List (String × Val)) : List (String × Val) :=
  es.foldr insertE []

mutual
/-- Size of a value (used only as the fuel measure of the
    interpreter below). -/
def szV : Val → Nat
  | .adtInst _ args => szL args + 1
  | .vmap _ es => szE es + 1
  | .vseq l => szL l + 1
  | _ => 1
/-- Size of a value list. -/
def szL : List Val → Nat
  | [] => 1
  | v :: vs => szV v + szL vs + 1
/-- Size of an entry list. -/
def szE : List (String × Val) → Nat
  | [] => 1
  | e :: es => szV e.2 + szE es + 1
end

theorem szV_pos (v : Val) : 0 < szV v := by
  cases v <;> simp [szV]

theorem szE_insertE (e : String × Val) (es : List (String × Val)) :
    szE (insertE e es) = szV e.2 + szE es + 1 := by
  induction es with
  | nil => simp [insertE, szE]
  | cons x xs ih =>
      simp only [insertE]
      split
      · simp [szE]
      · simp [szE, ih]; omega

theorem szE_sortEntries (es : List (String × Val)) :
    szE (sortEntries es) = szE es := by
  induction es with
  | nil => rfl
  | cons x xs ih =>
      simp only [sortEntries, List.foldr] at ih ⊢
      rw [szE_insertE, ih, szE]

theorem insertE_perm (e : String × Val) (es : List (String × Val)) :
    List.Perm (insertE e es) (e :: es) := by
  induction es with
  | nil => rfl
  | cons x xs ih =>
      simp only [insertE]; split
      · rfl
      · exact (List.Perm.cons x ih).trans (List.Perm.swap e x xs)

theorem sortEntries_perm (es : List (String × Val)) :
    List.Perm (sortEntries es) es := by
  induction es with
  | nil => rfl
  | cons x xs ih =>
      simpa [sortEntries] using (insertE_perm x (sortEntries xs)).trans
        (List.Perm.cons x ih)

/-- The element sequence of the generator `rest()` built for a
    `BindingRest`: the remaining value elements, padded with the
    sentinel up to the remaining length of the pattern (the code pulls
    the value side of `zip_longest` pieces, where sentinels fill in
    once the value side is exhausted). -/
def padRest (vs : List Val) (k : Nat) : List Val :=
  vs ++ List.replicate (k - vs.length) .sentinel

/-- Structural match failures (`MatchFailed`), tagged by the message
    each `raise MatchFailed(...)` site produces; `nested` is the
    wrapping performed by `MatchVisitor.recur`.  `fuel` is an artifact
    of the fuel-indexed interpreter, proved unreachable below. -/
inductive MFail where
  | fuel : MFail
  | lengths : MFail
  | notSequence : MFail
  | notMapping : MFail
  | missingKey : String → MFail
  | ctorMismatch : MFail
  | instMismatch : MFail
  | literalNe : MFail
  | nested : MFail → MFail
deriving DecidableEq, Repr

abbrev Bindings := List (String × Val)

/-- `MatchVisitor.recur`: wrap an inner failure in an outer
    `MatchFailed` chained to it.  The fuel artifact passes through
    untouched so that fuel sufficiency is monotone. -/
def errNest : Except MFail Bindings → Except MFail Bindings
  | .error .fuel => .error .fuel
  | .error f => .error (.nested f)
  | .ok bs => .ok bs

/-- The work items of the interpreter: matching one pattern against
    one value (`dispatch` on the pattern), walking a sequence pattern
    (`MatchVisitor.sequence`'s loop over `zip_longest` pieces), the
    truncating pairwise walk of `MatchVisitor.adt_instance`
    (`zip(instance, self.value)`), and the key walk of
    `MatchVisitor.mapping`. -/
inductive MIn where
  | one : Val → Val → MIn
  | seq : List Val → List Val → MIn
  | zipl : List Val → List Val → MIn
  | ents : List (String × Val) → Val → MIn

/-- Fuel needed by a work item: the recursion descends strictly in the
    size of the pattern side. -/
def need : MIn → Nat
  | .one p _ => szV p
  | .seq ps _ => szL ps
  | .zipl ps _ => szL ps
  | .ents es _ => szE es

/-- The fuel-indexed matcher.  `runF (n+1) (.one p v)` is
    `dispatch(p, MatchVisitor(v))`: the branch order mirrors the
    `isinstance` chain of `dispatch` (Binding first, then ADT class,
    ADT instance, `str` as literal, map-like, iterable, literal
    fallback); the disjoint `Val` constructors make each branch
    exclusive exactly as that chain does. -/
def runF : Nat → MIn → Except MFail Bindings
  | 0, _ => .error .fuel
  | n + 1, .one p v =>
      match p with
      | .binding s => .ok (bindName s v)
      | .bindingRest s => .ok (bindName s v)
      | .adtCtor var =>
          -- MatchVisitor.adt_constructor: isinstance check, then
          -- zip(ctr._fields, self.value)
          match v with
          | .adtInst w args =>
              if w = var then .ok (var.fields.zip args)
              else .error .ctorMismatch
          | _ => .error .ctorMismatch
      | .adtInst var pargs =>
          -- MatchVisitor.adt_instance: isinstance check, then recur
          -- over zip(instance, self.value)
          match v with
          | .adtInst w vargs =>
              if w = var then runF n (.zipl pargs vargs)
              else .error .instMismatch
          | _ => .error .instMismatch
      | .vstr s =>
          -- dispatch routes plain strings to the literal handler
          if pyEq v (.vstr s) then .ok [] else .error .literalNe
      | .vmap ordered es =>
          -- MatchVisitor.mapping: value must be map-like; keys are
          -- iterated in insertion order for an OrderedDict, sorted
          -- otherwise
          if v.isMapLike then
            runF n (.ents (if ordered then es else sortEntries es) v)
          else .error .notMapping
      | .vseq l =>
          -- MatchVisitor.sequence: value must have __iter__
          if v.hasIter then runF n (.seq l v.iterList)
          else .error .notSequence
      | .vint m => if pyEq v (.vint m) then .ok [] else .error .literalNe
      | .vnone => if pyEq v .vnone then .ok [] else .error .literalNe
      | .sentinel => if pyEq v .sentinel then .ok [] else .error .literalNe
  | n + 1, .seq ps vs =>
      match ps with
      | [] =>
          -- pattern exhausted: if value continues, the piece is
          -- (sentinel, v) and the loop raises "different lengths"
          match vs with
          | [] => .ok []
          | _ :: _ => .error .lengths
      | p :: ps' =>
          -- the loop checks isinstance(subpattern, BindingRest) before
          -- the sentinel check, so a BindingRest fires even when the
          -- value side is already exhausted
          match p with
          | .bindingRest s =>
              .ok (bindName s (.vseq (padRest vs (ps'.length + 1))))
          | _ =>
              match vs with
              | [] => .error .lengths
              | v :: vt => do
                  let b ← errNest (runF n (.one p v))
                  let r ← runF n (.seq ps' vt)
                  return b ++ r
  | n + 1, .zipl ps vs =>
      match ps, vs with
      | p :: ps', v :: vt => do
          let b ← errNest (runF n (.one p v))
          let r ← runF n (.zipl ps' vt)
          return b ++ r
      | _, _ => .ok []   -- zip truncates at the shorter sequence
  | n + 1, .ents es v =>
      match es with
      | [] => .ok []
      | (k, sub) :: rest =>
          if v.containsKey k then do
            let b ← errNest (runF n (.one sub (v.getVal k)))
            let r ← runF n (.ents rest v)
            return b ++ r
          else .error (.missingKey k)

/-- Any two sufficient amounts of fuel give the same result: the fuel
    parameter is an implementation artifact of the shallow embedding,
    not part of the matcher's semantics. -/
theorem runF_stable : ∀ (k : Nat) (i : MIn) (m : Nat),
    need i < k → need i < m → runF k i = runF m i := by
  intro k
  induction k using Nat.strong_induction_on with
  | _ k ih =>
  intro i m hk hm
  obtain ⟨k', rfl⟩ : ∃ j, k = j + 1 := ⟨k - 1, by omega⟩
  obtain ⟨m', rfl⟩ : ∃ j, m = j + 1 := ⟨m - 1, by omega⟩
  cases i with
  | one p v =>
      cases p <;> try rfl
      case adtInst var pargs =>
          simp only [need, szV] at hk hm
          cases v <;> try rfl
          case adtInst w vargs =>
            simp only [runF]
            by_cases hw : w = var
            · simp only [hw, eq_self_iff_true, if_true]
              exact ih k' (by omega) _ m' (by simp [need]; omega)
                (by simp [need]; omega)
            · simp [hw]
      case vmap ordered es =>
          simp only [need, szV] at hk hm
          have hsz : szE (if ordered then es else sortEntries es) = szE es := by
            cases ordered <;> simp [szE_sortEntries]
          simp only [runF]
          by_cases hml : v.isMapLike
          · simp only [hml, if_true]
            exact ih k' (by omega) _ m' (by simp [need, hsz]; omega)
              (by simp [need, hsz]; omega)
          · simp [hml]
      case vseq l =>
          simp only [need, szV] at hk hm
          simp only [runF]
          by_cases hit : v.hasIter
          · simp only [hit, if_true]
            exact ih k' (by omega) _ m' (by simp [need]; omega)
              (by simp [need]; omega)
          · simp [hit]
  | seq ps vs =>
      cases ps with
      | nil => rfl
      | cons p ps' =>
          simp only [need, szL] at hk hm
          have hp := szV_pos p
          cases p <;> try rfl
          all_goals
            cases vs with
            | nil => rfl
            | cons v vt =>
                simp only [runF]
                rw [ih k' (by omega) (.one _ v) m' (by simp [need]; omega)
                      (by simp [need]; omega),
                    ih k' (by omega) (.seq ps' vt) m' (by simp [need]; omega)
                      (by simp [need]; omega)]
  | zipl ps vs =>
      cases ps with
      | nil => rfl
      | cons p ps' =>
          cases vs with
          | nil => rfl
          | cons v vt =>
              simp only [need, szL] at hk hm
              simp only [runF]
              rw [ih k' (by omega) (.one p v) m' (by simp [need]; omega)
                    (by simp [need]; omega),
                  ih k' (by omega) (.zipl ps' vt) m' (by simp [need]; omega)
                    (by simp [need]; omega)]
  | ents es v =>
      cases es with
      | nil => rfl
      | cons e rest =>
          obtain ⟨ky, sub⟩ := e
          simp only [need, szE] at hk hm
          simp only [runF]
          by_cases hc : v.containsKey ky
          · simp only [hc, if_true]
            rw [ih k' (by omega) (.one sub (v.getVal ky)) m'
                  (by simp [need]; omega) (by simp [need]; omega),
                ih k' (by omega) (.ents rest v) m' (by simp [need]; omega)
                  (by simp [need]; omega)]
          · simp [hc]

theorem runF_seq_cons (n : Nat) (p : Val) (ps : List Val) (v : Val)
    (vt : List Val) (h : p.isRestB = false) :
    runF (n + 1) (.seq (p :: ps) (v :: vt)) = do
      let b ← errNest (runF n (.one p v))
      let r ← runF n (.seq ps vt)
      return b ++ r := by
  cases p <;> first
    | rfl
    | simp [Val.isRestB] at h

theorem runF_zipl_cons (n : Nat) (p : Val) (ps : List Val) (v : Val)
    (vt : List Val) :
    runF (n + 1) (.zipl (p :: ps) (v :: vt)) = do
      let b ← errNest (runF n (.one p v))
      let r ← runF n (.zipl ps vt)
      return b ++ r := rfl

theorem runF_ents_cons (n : Nat) (k : String) (sub : Val)
    (rest : List (String × Val)) (v : Val) :
    runF (n + 1) (.ents ((k, sub) :: rest) v) =
      if v.containsKey k then do
        let b ← errNest (runF n (.one sub (v.getVal k)))
        let r ← runF n (.ents rest v)
        return b ++ r
      else .error (.missingKey k) := rfl

/-- `dispatch(pattern, MatchVisitor(value))`: match one pattern against
    one value, returning the binding pairs the visitor yields. -/
def mvisit (p v : Val) : Except MFail Bindings :=
  runF (szV p + 1) (.one p v)

/-- The loop of `MatchVisitor.sequence` over the `zip_longest` pieces. -/
def mseqRun (ps vs : List Val) : Except MFail Bindings :=
  runF (szL ps + 1) (.seq ps vs)

/-- The truncating pairwise recursion of `MatchVisitor.adt_instance`. -/
def mzipRun (ps vs : List Val) : Except MFail Bindings :=
  runF (szL ps + 1) (.zipl ps vs)

/-- The key walk of `MatchVisitor.mapping` over an entry list. -/
def mentsRun (es : List (String × Val)) (v : Val) : Except MFail Bindings :=
  runF (szE es + 1) (.ents es v)

theorem mvisit_binding (s : String) (v : Val) :
    mvisit (.binding s) v = .ok (bindName s v) := rfl

theorem mvisit_bindingRest (s : String) (v : Val) :
    mvisit (.bindingRest s) v = .ok (bindName s v) := rfl

theorem mvisit_adtCtor_inst (var w : Variant) (args : List Val) :
    mvisit (.adtCtor var) (.adtInst w args) =
      if w = var then .ok (var.fields.zip args) else .error .ctorMismatch :=
  rfl

theorem mvisit_adtCtor_not (var : Variant) (v : Val)
    (h : v.isADTInstV = false) :
    mvisit (.adtCtor var) v = .error .ctorMismatch := by
  cases v <;> first
    | rfl
    | simp [Val.isADTInstV] at h

theorem mvisit_adtInst_inst (var w : Variant) (pargs vargs : List Val) :
    mvisit (.adtInst var pargs) (.adtInst w vargs) =
      if w = var then mzipRun pargs vargs else .error .instMismatch := rfl

theorem mvisit_adtInst_not (var : Variant) (pargs : List Val) (v : Val)
    (h : v.isADTInstV = false) :
    mvisit (.adtInst var pargs) v = .error .instMismatch := by
  cases v <;> first
    | rfl
    | simp [Val.isADTInstV] at h

theorem mvisit_vstr (s : String) (v : Val) :
    mvisit (.vstr s) v =
      if pyEq v (.vstr s) then .ok [] else .error .literalNe := rfl

theorem mvisit_vint (n : Int) (v : Val) :
    mvisit (.vint n) v =
      if pyEq v (.vint n) then .ok [] else .error .literalNe := rfl

theorem mvisit_vnone (v : Val) :
    mvisit .vnone v =
      if pyEq v .vnone then .ok [] else .error .literalNe := rfl

theorem mvisit_sentinel (v : Val) :
    mvisit .sentinel v =
      if pyEq v .sentinel then .ok [] else .error .literalNe := rfl

theorem mvisit_vmap (ordered : Bool) (es : List (String × Val)) (v : Val) :
    mvisit (.vmap ordered es) v =
      if v.isMapLike then
        mentsRun (if ordered then es else sortEntries es) v
      else .error .notMapping := by
  show runF (szV (.vmap ordered es) + 1) (.one (.vmap ordered es) v) = _
  simp only [runF]
  by_cases hml : v.isMapLike
  · simp only [hml, if_true]
    exact runF_stable (szV (.vmap ordered es))
      (.ents (if ordered then es else sortEntries es) v)
      (szE (if ordered then es else sortEntries es) + 1)
      (by cases ordered <;> simp only [need, szV, szE_sortEntries,
            if_true, if_false, Bool.false_eq_true] <;> omega)
      (by simp only [need]; omega)
  · simp [hml]

theorem mvisit_vseq (l : List Val) (v : Val) :
    mvisit (.vseq l) v =
      if v.hasIter then mseqRun l v.iterList else .error .notSequence := rfl

theorem mseqRun_nil_nil : mseqRun [] [] = .ok [] := rfl

theorem mseqRun_nil_cons (v : Val) (vt : List Val) :
    mseqRun [] (v :: vt) = .error .lengths := rfl

theorem mseqRun_rest (s : String) (ps vs : List Val) :
    mseqRun (.bindingRest s :: ps) vs =
      .ok (bindName s (.vseq (padRest vs (ps.length + 1)))) := rfl

theorem mseqRun_cons_nil (p : Val) (ps : List Val) (h : p.isRestB = false) :
    mseqRun (p :: ps) [] = .error .lengths := by
  cases p <;> first
    | rfl
    | simp [Val.isRestB] at h

theorem mseqRun_cons_cons (p : Val) (ps : List Val) (v : Val) (vt : List Val)
    (h : p.isRestB = false) :
    mseqRun (p :: ps) (v :: vt) = do
      let b ← errNest (mvisit p v)
      let r ← mseqRun ps vt
      return b ++ r := by
  show runF (szL (p :: ps) + 1) (.seq (p :: ps) (v :: vt)) = _
  rw [runF_seq_cons _ _ _ _ _ h,
      runF_stable (szL (p :: ps)) (.one p v) (szV p + 1)
        (by simp only [need, szL]; omega) (by simp only [need]; omega),
      runF_stable (szL (p :: ps)) (.seq ps vt) (szL ps + 1)
        (by simp only [need, szL]; omega) (by simp only [need]; omega)]
  rfl

theorem mzipRun_nil (vs : List Val) : mzipRun [] vs = .ok [] := by
  cases vs <;> rfl

theorem mzipRun_cons_nil (p : Val) (ps : List Val) :
    mzipRun (p :: ps) [] = .ok [] := rfl

theorem mzipRun_cons_cons (p : Val) (ps : List Val) (v : Val)
    (vt : List Val) :
    mzipRun (p :: ps) (v :: vt) = do
      let b ← errNest (mvisit p v)
      let r ← mzipRun ps vt
      return b ++ r := by
  show runF (szL (p :: ps) + 1) (.zipl (p :: ps) (v :: vt)) = _
  rw [runF_zipl_cons,
      runF_stable (szL (p :: ps)) (.one p v) (szV p + 1)
        (by simp only [need, szL]; omega) (by simp only [need]; omega),
      runF_stable (szL (p :: ps)) (.zipl ps vt) (szL ps + 1)
        (by simp only [need, szL]; omega) (by simp only [need]; omega)]
  rfl

mutual
/-- `extract_bindings(pattern)` = `dispatch(pattern, BindingExtractor())`:
    the ordered list of binding names a pattern declares.  The branch per
    category mirrors `BindingExtractor`: a Binding yields its name unless
    empty; a constructor pattern yields the Variant's `_fields`; an
    instance is treated as the sequence of its field values; a mapping
    recurses over `map.values()` in the mapping's own (insertion) order;
    a sequence recurses over its elements; literals yield nothing. -/
def extractB : Val → List String
  | .binding s => if s = "" then [] else [s]
  | .bindingRest s => if s = "" then [] else [s]
  | .adtCtor var => var.fields
  | .adtInst _ args => extractL args
  | .vmap _ es => extractE es
  | .vseq l => extractL l
  | .vint _ => []
  | .vstr _ => []
  | .vnone => []
  | .sentinel => []
/-- `BindingExtractor.sequence`: chain the extractions of the elements. -/
def extractL : List Val → List String
  | [] => []
  | p :: ps => extractB p ++ extractL ps
/-- Extraction over a mapping's entries (`map.values()` in order). -/
def extractE : List (String × Val) → List String
  | [] => []
  | e :: es => extractB e.2 ++ extractE es
end

/-- ASCII fragment of `str.isidentifier` (the claims only involve ASCII
    names): nonempty, first character a letter or underscore, the rest
    letters, digits or underscores. -/
def identHeadChar (c : Char) : Bool :=
  (65 ≤ c.toNat && c.toNat ≤ 90) || (97 ≤ c.toNat && c.toNat ≤ 122) ||
    c.toNat == 95

def identTailChar (c : Char) : Bool :=
  identHeadChar c || (48 ≤ c.toNat && c.toNat ≤ 57)

def isIdentifier (s : String) : Bool :=
  match s.data with
  | [] => false
  | c :: cs => identHeadChar c && cs.all identTailChar

/-- `keyword.iskeyword`: the Python keyword list. -/
def isKeyword (s : String) : Bool :=
  [ "False", "None", "True", "and", "as", "assert", "async", "await",
    "break", "class", "continue", "def", "del", "elif", "else", "except",
    "finally", "for", "from", "global", "if",
    "import", "in", "is", "lambda", "nonlocal", "not", "pass", "raise",
    "return", "try", "while", "with", "yield" ].contains s

/-- `name.startswith('_')`. -/
def headUnderscore (s : String) : Bool :=
  match s.data with
  | c :: _ => c.toNat == 95
  | [] => false

/-- The `ValueError`s `collections.namedtuple` can raise while `match`
    builds the `CapturedValues` record from the bound names. -/
inductive NTErr where
  | badIdent : String → NTErr
  | keyword : String → NTErr
  | underscore : String → NTErr
  | duplicate : String → NTErr
deriving DecidableEq, Repr

/-- First validation loop of `namedtuple`: every name must be an
    identifier and not a keyword. -/
def checkIdentKw : List String → Option NTErr
  | [] => none
  | s :: rest =>
      if !isIdentifier s then some (.badIdent s)
      else if isKeyword s then some (.keyword s)
      else checkIdentKw rest

/-- Second validation loop of `namedtuple` (`rename=False`): no field
    name may start with an underscore or repeat an earlier one. -/
def checkSeen (seen : List String) : List String → Option NTErr
  | [] => none
  | s :: rest =>
      if headUnderscore s then some (.underscore s)
      else if seen.contains s then some (.duplicate s)
      else checkSeen (s :: seen) rest

/-- `namedtuple('CapturedValues', fields)` validation (the typename
    itself is a fixed valid identifier). -/
def namedtupleCheck (names : List String) : Option NTErr :=
  match checkIdentKw names with
  | some e => some e
  | none => checkSeen [] names

/-- The exceptions that can escape `match` and the dispatcher. -/
inductive PyErr where
  /-- `MatchFailed`, the recoverable structural-mismatch signal -/
  | matchFailed : MFail → PyErr
  /-- `ValueError` raised by `namedtuple` while assembling captures -/
  | valueError : NTErr → PyErr
  /-- `CasesExhausted`, naming the unmatched value and the dispatcher -/
  | casesExhausted : Val → String → PyErr

/-- `match(pattern, value)`: run the visitor, then build the
    `CapturedValues` namedtuple from the bindings (modelled as the
    ordered name/value pair list).  `unzip` splits the pairs and
    `namedtuple` validates the field names before the record is
    created. -/
def pymatch (p v : Val) : Except PyErr Bindings :=
  match mvisit p v with
  | .error f => .error (.matchFailed f)
  | .ok bs =>
      match namedtupleCheck (bs.map Prod.fst) with
      | some e => .error (.valueError e)
      | none => .ok bs

/-- One case of a `MatchCases` table: its attribute name, its pattern
    (the annotation of the action's first argument) and its action.
    The action abstracts over both invocation conventions of
    `MatchCases.__new__` (captures patched in as keyword arguments, or
    passed positionally): it receives the value and the capture list. -/
structure MCase (α : Type) where
  name : String
  pattern : Val
  action : Val → Bindings → α

/-- `MatchCases.__new__(cls, value)`: try the cases in declared order;
    `MatchFailed` means "try the next case"; any other error (e.g. the
    `ValueError`s of capture assembly) propagates; if the loop falls
    through, raise `CasesExhausted` naming the value and the class. -/
def dispatchCases {α : Type} (cls : String) (cases : List (MCase α))
    (v : Val) : Except PyErr α :=
  match cases with
  | [] => .error (.casesExhausted v cls)
  | c :: rest =>
      match pymatch c.pattern v with
      | .ok bs => .ok (c.action v bs)
      | .error (.matchFailed _) => dispatchCases cls rest v
      | .error e => .error e

/-- The pattern categories of the classifier (`dispatch`), restricted
    to the embedded fragment. -/
inductive PCat where
  | binding | adtConstructor | adtInstance | mapping | sequence | literal
deriving DecidableEq, Repr

/-- The classification performed by `dispatch`'s `isinstance` chain:
    Binding first, then bare ADT class, ADT instance, then — after the
    AST and compiled-regex checks, which nothing in the embedded
    fragment can satisfy — plain `str`s are routed to the literal
    handler, then map-like objects, then anything iterable, and
    finally the literal fallback. -/
def classify (p : Val) : PCat :=
  if p.isBindingV then .binding
  else if p.isADTTypeV then .adtConstructor
  else if p.isADTInstV then .adtInstance
  else if p.isStrV then .literal
  else if p.isMapLike then .mapping
  else if p.hasIter then .sequence
  else .literal

theorem mentsRun_nil (v : Val) : mentsRun [] v = .ok [] := rfl

theorem mentsRun_cons (k : String) (sub : Val) (rest : List (String × Val))
    (v : Val) :
    mentsRun ((k, sub) :: rest) v =
      if v.containsKey k then do
        let b ← errNest (mvisit sub (v.getVal k))
        let r ← mentsRun rest v
        return b ++ r
      else .error (.missingKey k) := by
  show runF (szE ((k, sub) :: rest) + 1) (.ents ((k, sub) :: rest) v) = _
  rw [runF_ents_cons]
  by_cases hc : v.containsKey k
  · simp only [hc, if_true]
    rw [runF_stable (szE ((k, sub) :: rest)) (.one sub (v.getVal k))
          (szV sub + 1) (by simp only [need, szE]; omega)
          (by simp only [need]; omega),
        runF_stable (szE ((k, sub) :: rest)) (.ents rest v) (szE rest + 1)
          (by simp only [need, szE]; omega) (by simp only [need]; omega)]
    rfl
  · simp [hc]

/-- A non-final `BindingRest` is absent from the top level of a
    sequence pattern (spec §3: a RestBinding may appear at most once
    and only as the last element). -/
def seqShapeOk : List Val → Bool
  | [] => true
  | [_] => true
  | p :: rest => !p.isRestB && seqShapeOk rest

mutual
/-- Values constructible by the Python runtime: every Variant instance
    carries exactly as many field values as its class declares
    (enforced by the namedtuple base at construction time). -/
inductive WFv : Val → Prop where
  | vint : ∀ n, WFv (.vint n)
  | vstr : ∀ s, WFv (.vstr s)
  | vnone : WFv .vnone
  | sentinel : WFv .sentinel
  | binding : ∀ s, WFv (.binding s)
  | bindingRest : ∀ s, WFv (.bindingRest s)
  | adtCtor : ∀ var, WFv (.adtCtor var)
  | adtInst : ∀ var args, args.length = var.fields.length →
      WFvs args → WFv (.adtInst var args)
  | vmap : ∀ b es, WFes es → WFv (.vmap b es)
  | vseq : ∀ l, WFvs l → WFv (.vseq l)
/-- All values of a list are well-formed. -/
inductive WFvs : List Val → Prop where
  | nil : WFvs []
  | cons : ∀ v vs, WFv v → WFvs vs → WFvs (v :: vs)
/-- All values of an entry list are well-formed. -/
inductive WFes : List (String × Val) → Prop where
  | nil : WFes []
  | cons : ∀ e es, WFv e.2 → WFes es → WFes (e :: es)
end

mutual
/-- Patterns constructible by the Python runtime, with their
    RestBindings only in the final position of each sequence
    subpattern.  The flag, when `true`, additionally requires every
    mapping subpattern to be an `OrderedDict`. -/
inductive PatOk : Bool → Val → Prop where
  | vint : ∀ {o} (n : Int), PatOk o (.vint n)
  | vstr : ∀ {o} (s : String), PatOk o (.vstr s)
  | vnone : ∀ {o}, PatOk o .vnone
  | sentinel : ∀ {o}, PatOk o .sentinel
  | binding : ∀ {o} (s : String), PatOk o (.binding s)
  | bindingRest : ∀ {o} (s : String), PatOk o (.bindingRest s)
  | adtCtor : ∀ {o} (var : Variant), PatOk o (.adtCtor var)
  | adtInst : ∀ {o} (var : Variant) (args : List Val),
      args.length = var.fields.length →
      PatOks o args → PatOk o (.adtInst var args)
  | vmap : ∀ {o} (b : Bool) (es : List (String × Val)),
      (o = true → b = true) → PatOkEs o es →
      PatOk o (.vmap b es)
  | vseq : ∀ {o} (l : List Val), seqShapeOk l = true → PatOks o l →
      PatOk o (.vseq l)
/-- All patterns of a list are acceptable. -/
inductive PatOks : Bool → List Val → Prop where
  | nil : ∀ {o}, PatOks o []
  | cons : ∀ {o} (p : Val) (ps : List Val), PatOk o p → PatOks o ps →
      PatOks o (p :: ps)
/-- All value subpatterns of an entry list are acceptable. -/
inductive PatOkEs : Bool → List (String × Val) → Prop where
  | nil : ∀ {o}, PatOkEs o []
  | cons : ∀ {o} (e : String × Val) (es : List (String × Val)),
      PatOk o e.2 → PatOkEs o es → PatOkEs o (e :: es)
end

theorem WFvs_mem : ∀ {l : List Val}, WFvs l → ∀ {v : Val}, v ∈ l → WFv v := by
  intro l
  induction l with
  | nil => intro _ v hv; cases hv
  | cons w ws ih =>
      intro h v hv
      cases h with
      | cons _ _ hw hws =>
          rcases List.mem_cons.mp hv with rfl | hv'
          · exact hw
          · exact ih hws hv'

theorem WFvs_of_forall {l : List Val} (h : ∀ v ∈ l, WFv v) : WFvs l := by
  induction l with
  | nil => exact .nil
  | cons v vs ih =>
      exact .cons v vs (h v (by simp)) (ih fun w hw => h w (by simp [hw]))

theorem WFes_mem : ∀ {es : List (String × Val)}, WFes es →
    ∀ {e : String × Val}, e ∈ es → WFv e.2 := by
  intro es
  induction es with
  | nil => intro _ e he; cases he
  | cons x xs ih =>
      intro h e he
      cases h with
      | cons _ _ hx hxs =>
          rcases List.mem_cons.mp he with rfl | he'
          · exact hx
          · exact ih hxs he'

theorem PatOkEs_iff_forall {o : Bool} {es : List (String × Val)} :
    PatOkEs o es ↔ ∀ e ∈ es, PatOk o e.2 := by
  induction es with
  | nil =>
      refine ⟨fun _ e he => (by cases he), fun _ => .nil⟩
  | cons x xs ih =>
      constructor
      · intro h e he
        cases h with
        | cons _ _ hx hxs =>
            rcases List.mem_cons.mp he with rfl | he'
            · exact hx
            · exact ih.mp hxs e he'
      · intro h
        exact .cons x xs (h x (by simp))
          (ih.mpr fun e he => h e (by simp [he]))

theorem PatOkEs_sortEntries {o : Bool} {es : List (String × Val)}
    (h : PatOkEs o es) : PatOkEs o (sortEntries es) := by
  rw [PatOkEs_iff_forall] at h ⊢
  exact fun e he => h e ((sortEntries_perm es).mem_iff.mp he)

/-- Every element produced by iterating a well-formed value is
    well-formed. -/
theorem WFv_iterList {v : Val} (h : WFv v) : WFvs v.iterList := by
  cases h with
  | adtInst var args _ hargs => exact hargs
  | vseq l hl => exact hl
  | vmap b es _ =>
      exact WFvs_of_forall fun w hw => by
        simp only [Val.iterList, List.mem_map] at hw
        obtain ⟨e, _, rfl⟩ := hw
        exact .vstr _
  | vstr s =>
      exact WFvs_of_forall fun w hw => by
        simp only [Val.iterList, List.mem_map] at hw
        obtain ⟨c, _, rfl⟩ := hw
        exact .vstr _
  | binding s =>
      exact WFvs_of_forall fun w hw => by
        simp only [Val.iterList, List.mem_map] at hw
        obtain ⟨c, _, rfl⟩ := hw
        exact .vstr _
  | bindingRest s =>
      exact WFvs_of_forall fun w hw => by
        simp only [Val.iterList, List.mem_map] at hw
        obtain ⟨c, _, rfl⟩ := hw
        exact .vstr _
  | _ => exact .nil

/-- A dict lookup on a well-formed value yields a well-formed value. -/
theorem WFv_getVal {v : Val} (h : WFv v) (k : String) : WFv (v.getVal k) := by
  cases h with
  | vmap b es hes =>
      simp only [Val.getVal]
      cases hfind : es.find? (fun e => e.1 == k) with
      | none => exact .vnone
      | some e => exact WFes_mem hes (List.mem_of_find?_eq_some hfind)
  | _ => exact .vnone

theorem errNest_ok {x : Except MFail Bindings} {b : Bindings} :
    errNest x = .ok b ↔ x = .ok b := by
  cases x with
  | ok b' => simp [errNest]
  | error f => cases f <;> simp [errNest]

theorem exceptDo_ok {x y : Except MFail Bindings} {bs : Bindings} :
    (do
      let b ← x
      let r ← y
      return b ++ r) = Except.ok bs ↔
      ∃ b r, x = .ok b ∧ y = .ok r ∧ bs = b ++ r := by
  cases x with
  | error e => simp [Bind.bind, Except.bind]
  | ok b =>
      cases y with
      | error e => simp [Bind.bind, Except.bind]
      | ok r =>
          simp only [Bind.bind, Except.bind, Pure.pure, Except.pure,
            Except.ok.injEq]
          constructor
          · rintro rfl
            exact ⟨b, r, rfl, rfl, rfl⟩
          · rintro ⟨b', r', hb, hr, rfl⟩
            cases hb; cases hr; rfl

theorem seqShapeOk_tail {p : Val} {ps : List Val}
    (h : seqShapeOk (p :: ps) = true) : seqShapeOk ps = true := by
  cases ps with
  | nil => rfl
  | cons q qs => simp only [seqShapeOk, Bool.and_eq_true] at h; exact h.2

theorem seqShapeOk_rest_tail {s : String} {ps : List Val}
    (h : seqShapeOk (.bindingRest s :: ps) = true) : ps = [] := by
  cases ps with
  | nil => rfl
  | cons q qs => simp [seqShapeOk, Val.isRestB] at h

theorem extractE_eq_bind (es : List (String × Val)) :
    extractE es = es.flatMap (fun e => extractB e.2) := by
  induction es with
  | nil => rfl
  | cons e rest ih => simp [extractE, ih]

theorem extractE_perm {es₁ es₂ : List (String × Val)} (h : es₁.Perm es₂) :
    (extractE es₁).Perm (extractE es₂) := by
  rw [extractE_eq_bind, extractE_eq_bind]
  exact h.flatMap_right _

theorem bindName_names (s : String) (v : Val) :
    (bindName s v).map Prod.fst = if s = "" then [] else [s] := by
  unfold bindName; split <;> simp

/-- Core agreement lemma: whenever the visitor succeeds on a
    well-formed pattern (RestBindings only in trailing position) and a
    well-formed value, the names it binds are a permutation of the
    names the extractor yields. -/
theorem namesPermAux : ∀ n : Nat,
    (∀ (o : Bool) (p v : Val) (bs : Bindings), szV p ≤ n → PatOk o p →
      WFv v → mvisit p v = .ok bs →
      List.Perm (bs.map Prod.fst) (extractB p)) ∧
    (∀ (o : Bool) (ps vs : List Val) (bs : Bindings), szL ps ≤ n →
      seqShapeOk ps = true → PatOks o ps → WFvs vs →
      mseqRun ps vs = .ok bs → List.Perm (bs.map Prod.fst) (extractL ps)) ∧
    (∀ (o : Bool) (ps vs : List Val) (bs : Bindings), szL ps ≤ n →
      PatOks o ps → WFvs vs → ps.length ≤ vs.length →
      mzipRun ps vs = .ok bs → List.Perm (bs.map Prod.fst) (extractL ps)) ∧
    (∀ (o : Bool) (es : List (String × Val)) (v : Val) (bs : Bindings),
      szE es ≤ n → PatOkEs o es → WFv v →
      mentsRun es v = .ok bs → List.Perm (bs.map Prod.fst) (extractE es)) := by
  intro n
  induction n using Nat.strong_induction_on with
  | _ n ih =>
  refine ⟨?_, ?_, ?_, ?_⟩
  · -- one pattern against one value
    intro o p v bs hsz hp hv hm
    cases hp with
    | vint m =>
        rw [mvisit_vint] at hm
        split at hm
        · simp only [Except.ok.injEq] at hm; subst hm; exact List.Perm.nil
        · simp at hm
    | vstr s =>
        rw [mvisit_vstr] at hm
        split at hm
        · simp only [Except.ok.injEq] at hm; subst hm; exact List.Perm.nil
        · simp at hm
    | vnone =>
        rw [mvisit_vnone] at hm
        split at hm
        · simp only [Except.ok.injEq] at hm; subst hm; exact List.Perm.nil
        · simp at hm
    | sentinel =>
        rw [mvisit_sentinel] at hm
        split at hm
        · simp only [Except.ok.injEq] at hm; subst hm; exact List.Perm.nil
        · simp at hm
    | binding s =>
        rw [mvisit_binding] at hm
        simp only [Except.ok.injEq] at hm; subst hm
        rw [bindName_names]
        exact List.Perm.refl _
    | bindingRest s =>
        rw [mvisit_bindingRest] at hm
        simp only [Except.ok.injEq] at hm; subst hm
        rw [bindName_names]
        exact List.Perm.refl _
    | adtCtor var =>
        cases hv <;> try (simp [mvisit_adtCtor_not, Val.isADTInstV] at hm)
        case adtInst w args hlen hargs =>
          rw [mvisit_adtCtor_inst] at hm
          split at hm
          next hw =>
            subst hw
            simp only [Except.ok.injEq] at hm; subst hm
            rw [List.map_fst_zip _ _ (by omega)]
            exact List.Perm.refl _
          next hw => simp at hm
    | adtInst var pargs hplen hpargs =>
        cases hv <;> try (simp [mvisit_adtInst_not, Val.isADTInstV] at hm)
        case adtInst w vargs hvlen hvargs =>
          rw [mvisit_adtInst_inst] at hm
          split at hm
          next hw =>
            subst hw
            simp only [szV] at hsz
            exact (ih (szL pargs) (by omega)).2.2.1 o pargs vargs bs le_rfl
              hpargs hvargs (by omega) hm
          next hw => simp at hm
    | vmap b es hob hpes =>
        rw [mvisit_vmap] at hm
        split at hm
        next hml =>
          simp only [szV] at hsz
          cases b with
          | true =>
              simp only [if_true] at hm
              exact (ih (szE es) (by omega)).2.2.2 o es v bs le_rfl hpes hv hm
          | false =>
              simp only [Bool.false_eq_true, if_false] at hm
              have h1 := (ih (szE es) (by omega)).2.2.2 o (sortEntries es) v bs
                (le_of_eq (szE_sortEntries es)) (PatOkEs_sortEntries hpes)
                hv hm
              exact h1.trans (extractE_perm (sortEntries_perm es))
        next hml => simp at hm
    | vseq l hshape hl =>
        rw [mvisit_vseq] at hm
        split at hm
        next hit =>
          simp only [szV] at hsz
          exact (ih (szL l) (by omega)).2.1 o l v.iterList bs le_rfl hshape
            hl (WFv_iterList hv) hm
        next hit => simp at hm
  · -- the sequence loop
    intro o ps vs bs hsz hshape hps hvs hm
    cases ps with
    | nil =>
        cases vs with
        | nil =>
            rw [mseqRun_nil_nil] at hm
            simp only [Except.ok.injEq] at hm; subst hm; exact List.Perm.nil
        | cons v vt => rw [mseqRun_nil_cons] at hm; simp at hm
    | cons p ps' =>
        cases hb : p.isRestB with
        | true =>
            cases p <;> simp [Val.isRestB] at hb
            case bindingRest s =>
              have hps' : ps' = [] := seqShapeOk_rest_tail hshape
              subst hps'
              rw [mseqRun_rest] at hm
              simp only [Except.ok.injEq] at hm; subst hm
              rw [bindName_names]
              simp only [extractL, extractB, List.append_nil]
              exact List.Perm.refl _
        | false =>
            cases hps with
            | cons _ _ hp hps' =>
            cases vs with
            | nil => rw [mseqRun_cons_nil _ _ hb] at hm; simp at hm
            | cons v vt =>
                cases hvs with
                | cons _ _ hv hvt =>
                rw [mseqRun_cons_cons _ _ _ _ hb] at hm
                rw [exceptDo_ok] at hm
                obtain ⟨b', r', hbv, hr, rfl⟩ := hm
                rw [errNest_ok] at hbv
                simp only [szL] at hsz
                have ih1 := (ih (szV p) (by omega)).1 o p v b' le_rfl hp hv hbv
                have ih2 := (ih (szL ps') (by omega)).2.1 o ps' vt r' le_rfl
                  (seqShapeOk_tail hshape) hps' hvt hr
                simp only [List.map_append, extractL]
                exact ih1.append ih2
  · -- the truncating zip of adt_instance
    intro o ps vs bs hsz hps hvs hlen hm
    cases ps with
    | nil =>
        rw [mzipRun_nil] at hm
        simp only [Except.ok.injEq] at hm; subst hm; exact List.Perm.nil
    | cons p ps' =>
        cases vs with
        | nil => simp at hlen
        | cons v vt =>
            cases hps with
            | cons _ _ hp hps' =>
            cases hvs with
            | cons _ _ hv hvt =>
            rw [mzipRun_cons_cons] at hm
            rw [exceptDo_ok] at hm
            obtain ⟨b', r', hbv, hr, rfl⟩ := hm
            rw [errNest_ok] at hbv
            simp only [szL] at hsz
            simp only [List.length_cons] at hlen
            have ih1 := (ih (szV p) (by omega)).1 o p v b' le_rfl hp hv hbv
            have ih2 := (ih (szL ps') (by omega)).2.2.1 o ps' vt r' le_rfl
              hps' hvt (by omega) hr
            simp only [List.map_append, extractL]
            exact ih1.append ih2
  · -- the mapping key walk
    intro o es v bs hsz hes hv hm
    cases es with
    | nil =>
        rw [mentsRun_nil] at hm
        simp only [Except.ok.injEq] at hm; subst hm; exact List.Perm.nil
    | cons e rest =>
        obtain ⟨k, sub⟩ := e
        cases hes with
        | cons _ _ hsub hrest =>
        rw [mentsRun_cons] at hm
        split at hm
        next hc =>
          rw [exceptDo_ok] at hm
          obtain ⟨b', r', hbv, hr, rfl⟩ := hm
          rw [errNest_ok] at hbv
          simp only [szE] at hsz
          have ih1 := (ih (szV sub) (by omega)).1 o sub (v.getVal k) b'
            le_rfl hsub (WFv_getVal hv k) hbv
          have ih2 := (ih (szE rest) (by omega)).2.2.2 o rest v r' le_rfl
            hrest hv hr
          simp only [List.map_append, extractE]
          exact ih1.append ih2
        next hc => simp at hm

/-- Ordered agreement lemma: when every mapping subpattern is an
    `OrderedDict` (so the matcher iterates keys in insertion order,
    like the extractor), the bound names equal the extracted names as
    ordered lists, not merely as sets. -/
theorem namesOrderAux : ∀ n : Nat,
    (∀ (p v : Val) (bs : Bindings), szV p ≤ n → PatOk true p →
      WFv v → mvisit p v = .ok bs → bs.map Prod.fst = extractB p) ∧
    (∀ (ps vs : List Val) (bs : Bindings), szL ps ≤ n →
      seqShapeOk ps = true → PatOks true ps → WFvs vs →
      mseqRun ps vs = .ok bs → bs.map Prod.fst = extractL ps) ∧
    (∀ (ps vs : List Val) (bs : Bindings), szL ps ≤ n →
      PatOks true ps → WFvs vs → ps.length ≤ vs.length →
      mzipRun ps vs = .ok bs → bs.map Prod.fst = extractL ps) ∧
    (∀ (es : List (String × Val)) (v : Val) (bs : Bindings),
      szE es ≤ n → PatOkEs true es → WFv v →
      mentsRun es v = .ok bs → bs.map Prod.fst = extractE es) := by
  intro n
  induction n using Nat.strong_induction_on with
  | _ n ih =>
  refine ⟨?_, ?_, ?_, ?_⟩
  · intro p v bs hsz hp hv hm
    cases hp with
    | vint m =>
        rw [mvisit_vint] at hm
        split at hm
        · simp only [Except.ok.injEq] at hm; subst hm; rfl
        · simp at hm
    | vstr s =>
        rw [mvisit_vstr] at hm
        split at hm
        · simp only [Except.ok.injEq] at hm; subst hm; rfl
        · simp at hm
    | vnone =>
        rw [mvisit_vnone] at hm
        split at hm
        · simp only [Except.ok.injEq] at hm; subst hm; rfl
        · simp at hm
    | sentinel =>
        rw [mvisit_sentinel] at hm
        split at hm
        · simp only [Except.ok.injEq] at hm; subst hm; rfl
        · simp at hm
    | binding s =>
        rw [mvisit_binding] at hm
        simp only [Except.ok.injEq] at hm; subst hm
        rw [bindName_names]; rfl
    | bindingRest s =>
        rw [mvisit_bindingRest] at hm
        simp only [Except.ok.injEq] at hm; subst hm
        rw [bindName_names]; rfl
    | adtCtor var =>
        cases hv <;> try (simp [mvisit_adtCtor_not, Val.isADTInstV] at hm)
        case adtInst w args hlen hargs =>
          rw [mvisit_adtCtor_inst] at hm
          split at hm
          next hw =>
            subst hw
            simp only [Except.ok.injEq] at hm; subst hm
            exact List.map_fst_zip _ _ (by omega)
          next hw => simp at hm
    | adtInst var pargs hplen hpargs =>
        cases hv <;> try (simp [mvisit_adtInst_not, Val.isADTInstV] at hm)
        case adtInst w vargs hvlen hvargs =>
          rw [mvisit_adtInst_inst] at hm
          split at hm
          next hw =>
            subst hw
            simp only [szV] at hsz
            exact (ih (szL pargs) (by omega)).2.2.1 pargs vargs bs le_rfl
              hpargs hvargs (by omega) hm
          next hw => simp at hm
    | vmap b es hob hpes =>
        have hb := hob rfl
        subst hb
        rw [mvisit_vmap] at hm
        split at hm
        next hml =>
          simp only [if_true] at hm
          simp only [szV] at hsz
          exact (ih (szE es) (by omega)).2.2.2 es v bs le_rfl hpes hv hm
        next hml => simp at hm
    | vseq l hshape hl =>
        rw [mvisit_vseq] at hm
        split at hm
        next hit =>
          simp only [szV] at hsz
          exact (ih (szL l) (by omega)).2.1 l v.iterList bs le_rfl hshape
            hl (WFv_iterList hv) hm
        next hit => simp at hm
  · intro ps vs bs hsz hshape hps hvs hm
    cases ps with
    | nil =>
        cases vs with
        | nil =>
            rw [mseqRun_nil_nil] at hm
            simp only [Except.ok.injEq] at hm; subst hm; rfl
        | cons v vt => rw [mseqRun_nil_cons] at hm; simp at hm
    | cons p ps' =>
        cases hb : p.isRestB with
        | true =>
            cases p <;> simp [Val.isRestB] at hb
            case bindingRest s =>
              have hps' : ps' = [] := seqShapeOk_rest_tail hshape
              subst hps'
              rw [mseqRun_rest] at hm
              simp only [Except.ok.injEq] at hm; subst hm
              rw [bindName_names]
              simp [extractL, extractB]
        | false =>
            cases hps with
            | cons _ _ hp hps' =>
            cases vs with
            | nil => rw [mseqRun_cons_nil _ _ hb] at hm; simp at hm
            | cons v vt =>
                cases hvs with
                | cons _ _ hv hvt =>
                rw [mseqRun_cons_cons _ _ _ _ hb] at hm
                rw [exceptDo_ok] at hm
                obtain ⟨b', r', hbv, hr, rfl⟩ := hm
                rw [errNest_ok] at hbv
                simp only [szL] at hsz
                have ih1 := (ih (szV p) (by omega)).1 p v b' le_rfl hp hv hbv
                have ih2 := (ih (szL ps') (by omega)).2.1 ps' vt r' le_rfl
                  (seqShapeOk_tail hshape) hps' hvt hr
                simp only [List.map_append, extractL, ih1, ih2]
  · intro ps vs bs hsz hps hvs hlen hm
    cases ps with
    | nil =>
        rw [mzipRun_nil] at hm
        simp only [Except.ok.injEq] at hm; subst hm; rfl
    | cons p ps' =>
        cases vs with
        | nil => simp at hlen
        | cons v vt =>
            cases hps with
            | cons _ _ hp hps' =>
            cases hvs with
            | cons _ _ hv hvt =>
            rw [mzipRun_cons_cons] at hm
            rw [exceptDo_ok] at hm
            obtain ⟨b', r', hbv, hr, rfl⟩ := hm
            rw [errNest_ok] at hbv
            simp only [szL] at hsz
            simp only [List.length_cons] at hlen
            have ih1 := (ih (szV p) (by omega)).1 p v b' le_rfl hp hv hbv
            have ih2 := (ih (szL ps') (by omega)).2.2.1 ps' vt r' le_rfl
              hps' hvt (by omega) hr
            simp only [List.map_append, extractL, ih1, ih2]
  · intro es v bs hsz hes hv hm
    cases es with
    | nil =>
        rw [mentsRun_nil] at hm
        simp only [Except.ok.injEq] at hm; subst hm; rfl
    | cons e rest =>
        obtain ⟨k, sub⟩ := e
        cases hes with
        | cons _ _ hsub hrest =>
        rw [mentsRun_cons] at hm
        split at hm
        next hc =>
          rw [exceptDo_ok] at hm
          obtain ⟨b', r', hbv, hr, rfl⟩ := hm
          rw [errNest_ok] at hbv
          simp only [szE] at hsz
          have ih1 := (ih (szV sub) (by omega)).1 sub (v.getVal k) b'
            le_rfl hsub (WFv_getVal hv k) hbv
          have ih2 := (ih (szE rest) (by omega)).2.2.2 rest v r' le_rfl
            hrest hv hr
          simp only [List.map_append, extractE, ih1, ih2]
        next hc => simp at hm

/-- Behaviour of the sequence loop when it reaches a `BindingRest`
    after a successfully matched prefix: it binds the rest name to the
    remaining value elements (padded with sentinels up to the remaining
    pattern length) and stops, ignoring `qs` entirely. -/
theorem mseqRun_append_rest :
    ∀ (ps : List Val), (∀ p ∈ ps, p.isRestB = false) →
    ∀ (s : String) (qs vs : List Val) (bs : Bindings),
    ps.length ≤ vs.length →
    mzipRun ps (vs.take ps.length) = .ok bs →
    mseqRun (ps ++ .bindingRest s :: qs) vs =
      .ok (bs ++ bindName s (.vseq (padRest (vs.drop ps.length)
        (qs.length + 1)))) := by
  intro ps
  induction ps with
  | nil =>
      intro _ s qs vs bs _ hpre
      rw [mzipRun_nil] at hpre
      simp only [Except.ok.injEq] at hpre; subst hpre
      simp only [List.nil_append, List.drop_zero]
      rw [mseqRun_rest]
      simp
  | cons p ps' ih =>
      intro hnr s qs vs bs hlen hpre
      cases vs with
      | nil => simp at hlen
      | cons v vt =>
          simp only [List.length_cons, List.take_succ_cons] at hpre
          rw [mzipRun_cons_cons, exceptDo_ok] at hpre
          obtain ⟨b', r', hbv, hr, rfl⟩ := hpre
          rw [errNest_ok] at hbv
          have hbp : p.isRestB = false := hnr p (by simp)
          rw [List.cons_append,
            mseqRun_cons_cons _ _ _ _ hbp,
            hbv]
          rw [ih (fun q hq => hnr q (by simp [hq])) s qs vt r'
            (by simpa using hlen) hr]
          show Except.ok (b' ++ (r' ++ _)) = _
          rw [List.append_assoc]
          rfl

/-- The sequence loop, absent RestBindings, succeeds exactly on values
    of the same length whose elements match pairwise. -/
theorem mseqRun_isOk_iff :
    ∀ (ps vs : List Val), (∀ p ∈ ps, p.isRestB = false) →
    ((∃ bs, mseqRun ps vs = .ok bs) ↔
      (ps.length = vs.length ∧
        List.Forall₂ (fun p w => ∃ b, mvisit p w = .ok b) ps vs)) := by
  intro ps
  induction ps with
  | nil =>
      intro vs _
      cases vs with
      | nil => simp [mseqRun_nil_nil]
      | cons v vt => simp [mseqRun_nil_cons]
  | cons p ps' ih =>
      intro vs hnr
      have hbp : p.isRestB = false := hnr p (by simp)
      cases vs with
      | nil => simp [mseqRun_cons_nil _ _ hbp]
      | cons v vt =>
          rw [mseqRun_cons_cons _ _ _ _ hbp]
          constructor
          · rintro ⟨bs, hbs⟩
            rw [exceptDo_ok] at hbs
            obtain ⟨b', r', hbv, hr, rfl⟩ := hbs
            rw [errNest_ok] at hbv
            have := (ih vt (fun q hq => hnr q (by simp [hq]))).mp ⟨r', hr⟩
            exact ⟨by simp [this.1], List.Forall₂.cons ⟨b', hbv⟩ this.2⟩
          · rintro ⟨hlen, hfa⟩
            cases hfa with
            | cons hh ht =>
                obtain ⟨b', hbv⟩ := hh
                obtain ⟨r', hr⟩ := (ih vt
                  (fun q hq => hnr q (by simp [hq]))).mpr ⟨by simpa using hlen, ht⟩
                refine ⟨b' ++ r', ?_⟩
                rw [exceptDo_ok]
                exact ⟨b', r', errNest_ok.mpr hbv, hr, rfl⟩

/-- When the lengths differ and every pair the loop compares matches,
    the failure is the distinct "different lengths" cause. -/
theorem mseqRun_length_mismatch :
    ∀ (ps vs : List Val), (∀ p ∈ ps, p.isRestB = false) →
    ps.length ≠ vs.length →
    List.Forall₂ (fun p w => ∃ b, mvisit p w = .ok b)
      (ps.take vs.length) (vs.take ps.length) →
    mseqRun ps vs = .error .lengths := by
  intro ps
  induction ps with
  | nil =>
      intro vs _ hne _
      cases vs with
      | nil => simp at hne
      | cons v vt => exact mseqRun_nil_cons v vt
  | cons p ps' ih =>
      intro vs hnr hne hfa
      have hbp : p.isRestB = false := hnr p (by simp)
      cases vs with
      | nil => exact mseqRun_cons_nil _ _ hbp
      | cons v vt =>
          simp only [List.length_cons, List.take_succ_cons] at hfa
          cases hfa with
          | cons hh ht =>
              obtain ⟨b', hbv⟩ := hh
              rw [mseqRun_cons_cons _ _ _ _ hbp, errNest_ok.mpr hbv]
              rw [ih vt (fun q hq => hnr q (by simp [hq]))
                (by simpa using hne) ht]
              rfl

/-- The mapping walk succeeds exactly when the value contains every
    pattern key and the subpattern at each key matches the value
    there. -/
theorem mentsRun_isOk_iff :
    ∀ (es : List (String × Val)) (v : Val),
    ((∃ bs, mentsRun es v = .ok bs) ↔
      ∀ e ∈ es, v.containsKey e.1 = true ∧
        ∃ b, mvisit e.2 (v.getVal e.1) = .ok b) := by
  intro es
  induction es with
  | nil => intro v; simp [mentsRun_nil]
  | cons e rest ih =>
      intro v
      obtain ⟨k, sub⟩ := e
      rw [mentsRun_cons]
      by_cases hc : v.containsKey k
      · simp only [hc, if_true]
        constructor
        · rintro ⟨bs, hbs⟩
          rw [exceptDo_ok] at hbs
          obtain ⟨b', r', hbv, hr, rfl⟩ := hbs
          rw [errNest_ok] at hbv
          intro e he
          rcases List.mem_cons.mp he with rfl | he'
          · exact ⟨hc, b', hbv⟩
          · exact (ih v).mp ⟨r', hr⟩ e he'
        · intro h
          obtain ⟨hck, b', hbv⟩ := h (k, sub) (by simp)
          obtain ⟨r', hr⟩ := (ih v).mpr fun e he => h e (by simp [he])
          refine ⟨b' ++ r', ?_⟩
          rw [exceptDo_ok]
          exact ⟨b', r', errNest_ok.mpr hbv, hr, rfl⟩
      · simp only [hc, if_false, Bool.false_eq_true]
        constructor
        · rintro ⟨bs, hbs⟩; simp at hbs
        · intro h
          exact absurd (h (k, sub) (by simp)).1 (by simp [hc])

theorem checkSeen_none_cases :
    ∀ (names seen : List String),
    (∀ s ∈ names, headUnderscore s = false) →
    checkSeen seen names = none →
    names.Nodup ∧ ∀ s ∈ names, s ∉ seen := by
  intro names
  induction names with
  | nil => intro seen _ _; exact ⟨List.nodup_nil, by simp⟩
  | cons s rest ih =>
      intro seen hus h
      simp only [checkSeen] at h
      rw [if_neg (by simp [hus s (by simp)])] at h
      split at h
      · simp at h
      · next hmem =>
          obtain ⟨hnd, hni⟩ := ih (s :: seen)
            (fun t ht => hus t (by simp [ht])) h
          refine ⟨List.nodup_cons.mpr ⟨?_, hnd⟩, ?_⟩
          · intro hmem'
            exact (hni s hmem') (by simp)
          · intro t ht
            rcases List.mem_cons.mp ht with rfl | ht'
            · simpa using hmem
            · intro hts
              exact (hni t ht') (by simp [hts])
/-- If some name in the list already occurs in the seen set, the second
    namedtuple loop reports a duplicate. -/
theorem checkSeen_mem_dup :
    ∀ (names seen : List String),
    (∀ t ∈ names, headUnderscore t = false) →
    (∃ s, s ∈ names ∧ s ∈ seen) →
    ∃ t, checkSeen seen names = some (.duplicate t) := by
  intro names
  induction names with
  | nil => rintro seen _ ⟨s, hs, _⟩; simp at hs
  | cons q rest ih =>
      rintro seen hus ⟨s, hs, hseen⟩
      simp only [checkSeen]
      rw [if_neg (by simp [hus q (by simp)])]
      split
      · exact ⟨q, rfl⟩
      · next hq =>
          rcases List.mem_cons.mp hs with rfl | hs'
          · exact absurd (by simpa using hseen) (by simpa using hq)
          · exact ih (q :: seen) (fun t ht => hus t (by simp [ht]))
              ⟨s, hs', by simp [hseen]⟩

/-- Duplicate (underscore-free) names always surface as a `duplicate`
    ValueError from the second namedtuple loop. -/
theorem checkSeen_dup :
    ∀ (names seen : List String),
    (∀ s ∈ names, headUnderscore s = false) →
    ¬ names.Nodup →
    ∃ t, checkSeen seen names = some (.duplicate t) := by
  intro names
  induction names with
  | nil => intro seen _ hnd; exact absurd List.nodup_nil hnd
  | cons s rest ih =>
      intro seen hus hnd
      simp only [checkSeen]
      rw [if_neg (by simp [hus s (by simp)])]
      split
      · exact ⟨s, rfl⟩
      · by_cases hdup : rest.Nodup
        · by_cases hmem : s ∈ rest
          · exact checkSeen_mem_dup rest (s :: seen)
              (fun t ht => hus t (by simp [ht])) ⟨s, hmem, by simp⟩
          · exact absurd (List.nodup_cons.mpr ⟨hmem, hdup⟩) hnd
        · exact ih (s :: seen) (fun t ht => hus t (by simp [ht])) hdup

/-- Successful `match` means the visitor succeeded and the namedtuple
    validation passed. -/
theorem pymatch_ok_elim {p v : Val} {caps : Bindings}
    (hm : pymatch p v = .ok caps) :
    mvisit p v = .ok caps ∧ namedtupleCheck (caps.map Prod.fst) = none := by
  cases hmv : mvisit p v with
  | error f => simp [pymatch, hmv] at hm
  | ok bs =>
      cases hc : namedtupleCheck (bs.map Prod.fst) with
      | some e => simp [pymatch, hmv, hc] at hm
      | none =>
          simp only [pymatch, hmv, hc, Except.ok.injEq] at hm
          subst hm
          exact ⟨rfl, hc⟩

/-- C1, counterexample.  The pattern `[BindingRest('r'), Binding('b')]`
    declares the binding names `r` and `b`, but matching it against
    `[1, 2]` succeeds binding only `r` (the RestBinding consumes
    everything and the loop breaks, never reaching `b`), so the
    declared and actual name sets differ. -/
theorem c1_counterexample :
    pymatch (.vseq [.bindingRest "r", .binding "b"])
      (.vseq [.vint 1, .vint 2]) = .ok [("r", .vseq [.vint 1, .vint 2])] ∧
    extractB (.vseq [.bindingRest "r", .binding "b"]) = ["r", "b"] ∧
    ([("r", Val.vseq [.vint 1, .vint 2])].map Prod.fst).toFinset ≠
      (["r", "b"] : List String).toFinset :=
  ⟨rfl, rfl, by decide⟩

/-- C1, amended.  For every pattern whose sequence subpatterns carry
    RestBindings only in trailing position, and every well-formed
    value, a successful `match` binds exactly the set of names the
    binding extractor declares. -/
theorem c1_bindings_agree (o : Bool) (p v : Val) (caps : Bindings)
    (hp : PatOk o p) (hv : WFv v) (hm : pymatch p v = .ok caps) :
    (caps.map Prod.fst).toFinset = (extractB p).toFinset := by
  obtain ⟨hmv, -⟩ := pymatch_ok_elim hm
  have hperm := (namesPermAux (szV p)).1 o p v caps le_rfl hp hv hmv
  ext s
  simp [List.mem_toFinset, hperm.mem_iff]

theorem c1_bindings_agree_witness :
    pymatch (.vmap false [("k", .binding "a")])
      (.vmap false [("k", .vint 1), ("other", .vint 2)]) =
      .ok [("a", .vint 1)] ∧
    ([("a", Val.vint 1)].map Prod.fst).toFinset =
      (extractB (.vmap false [("k", .binding "a")])).toFinset :=
  ⟨rfl,
   c1_bindings_agree false (.vmap false [("k", .binding "a")])
     (.vmap false [("k", .vint 1), ("other", .vint 2)]) [("a", .vint 1)]
     (.vmap _ _ (fun h => h) (.cons _ _ (.binding _) .nil))
     (.vmap _ _ (.cons _ _ (.vint _) (.cons _ _ (.vint _) .nil)))
     rfl⟩

/-- C2.  A bare Variant used as a constructor pattern matches exactly
    the instances of that Variant, performs no recursive field
    matching, and captures every field verbatim under its field
    name. -/
theorem c2_constructor_pattern (var : Variant) (args : List Val)
    (hlen : args.length = var.fields.length) :
    mvisit (.adtCtor var) (.adtInst var args) = .ok (var.fields.zip args) ∧
    (var.fields.zip args).map Prod.fst = var.fields ∧
    (var.fields.zip args).map Prod.snd = args ∧
    ∀ v : Val, (∃ bs, mvisit (.adtCtor var) v = .ok bs) →
      ∃ args', v = .adtInst var args' := by
  refine ⟨?_, ?_, ?_, ?_⟩
  · rw [mvisit_adtCtor_inst, if_pos rfl]
  · exact List.map_fst_zip _ _ (by omega)
  · exact List.map_snd_zip _ _ (by omega)
  · intro v hv
    obtain ⟨bs, hbs⟩ := hv
    cases v <;> try (simp [mvisit_adtCtor_not, Val.isADTInstV] at hbs)
    case adtInst w args' =>
      rw [mvisit_adtCtor_inst] at hbs
      split at hbs
      next hw => exact ⟨args', by rw [hw]⟩
      next hw => simp at hbs

theorem c2_constructor_pattern_witness :
    [Val.vint 1, Val.vnone].length =
      (Variant.mk "Cons" ["head", "tail"]).fields.length ∧
    mvisit (.adtCtor (Variant.mk "Cons" ["head", "tail"]))
      (.adtInst (Variant.mk "Cons" ["head", "tail"]) [.vint 1, .vnone]) =
      .ok [("head", .vint 1), ("tail", .vnone)] :=
  ⟨rfl, (c2_constructor_pattern (Variant.mk "Cons" ["head", "tail"])
    [.vint 1, .vnone] rfl).1⟩

/-- C3.  The dispatcher tries cases in declared order; the first
    successful match wins and its action's result is returned, later
    cases untried; if every case raises `MatchFailed` the dispatcher
    raises `CasesExhausted` naming the value and the class; and a
    `MatchFailed` never escapes the dispatcher. -/
theorem c3_dispatch_first_match {α : Type} (cls : String) (v : Val) :
    (∀ (pre : List (MCase α)) (c : MCase α) (post : List (MCase α))
      (bs : Bindings),
      (∀ c' ∈ pre, ∃ f, pymatch c'.pattern v = .error (.matchFailed f)) →
      pymatch c.pattern v = .ok bs →
      dispatchCases cls (pre ++ c :: post) v = .ok (c.action v bs)) ∧
    (∀ cs : List (MCase α),
      (∀ c ∈ cs, ∃ f, pymatch c.pattern v = .error (.matchFailed f)) →
      dispatchCases cls cs v = .error (.casesExhausted v cls)) ∧
    (∀ (cs : List (MCase α)) (f : MFail),
      dispatchCases cls cs v ≠ .error (.matchFailed f)) := by
  refine ⟨?_, ?_, ?_⟩
  · intro pre
    induction pre with
    | nil =>
        intro c post bs _ hok
        simp [dispatchCases, hok]
    | cons c' pre' ih =>
        intro c post bs hpre hok
        obtain ⟨f, hf⟩ := hpre c' (by simp)
        simp only [List.cons_append, dispatchCases, hf]
        exact ih c post bs (fun x hx => hpre x (by simp [hx])) hok
  · intro cs
    induction cs with
    | nil => intro _; rfl
    | cons c cs' ih =>
        intro h
        obtain ⟨f, hf⟩ := h c (by simp)
        simp only [dispatchCases, hf]
        exact ih (fun x hx => h x (by simp [hx]))
  · intro cs
    induction cs with
    | nil => intro f h; simp [dispatchCases] at h
    | cons c cs' ih =>
        intro f h
        cases hp : pymatch c.pattern v with
        | ok bs => simp [dispatchCases, hp] at h
        | error e =>
            cases e with
            | matchFailed g =>
                simp only [dispatchCases, hp] at h
                exact ih f h
            | valueError ne => simp [dispatchCases, hp] at h
            | casesExhausted w cls' => simp [dispatchCases, hp] at h

theorem c3_dispatch_first_match_witness :
    (∀ c' ∈ [MCase.mk "case1" (Val.vint 5) (fun _ _ => (1 : Nat))],
      ∃ f, pymatch c'.pattern (Val.vint 7) = .error (.matchFailed f)) ∧
    pymatch (Val.binding "x") (Val.vint 7) = .ok [("x", Val.vint 7)] ∧
    dispatchCases "MyCases"
      ([MCase.mk "case1" (Val.vint 5) (fun _ _ => (1 : Nat))] ++
        MCase.mk "case2" (Val.binding "x") (fun _ _ => 2) ::
          [MCase.mk "case3" (Val.binding "y") (fun _ _ => 3)])
      (Val.vint 7) = .ok 2 := by
  refine ⟨?_, rfl, ?_⟩
  · intro c' hc'
    rcases List.mem_singleton.mp hc' with rfl
    exact ⟨.literalNe, rfl⟩
  · exact (c3_dispatch_first_match "MyCases" (.vint 7)).1
      [MCase.mk "case1" (Val.vint 5) (fun _ _ => (1 : Nat))]
      (MCase.mk "case2" (Val.binding "x") (fun _ _ => 2))
      [MCase.mk "case3" (Val.binding "y") (fun _ _ => 3)]
      [("x", Val.vint 7)]
      (fun c' hc' => by
        rcases List.mem_singleton.mp hc' with rfl
        exact ⟨.literalNe, rfl⟩)
      rfl

/-- C4.  At the exact boundary — the value has exactly as many
    elements as the pattern has before the trailing RestBinding — the
    match succeeds but the rest name is bound to a one-element sequence
    holding the matcher's private sentinel object, not to the empty
    remaining tail that the claim (and the `BindingRest` docstring,
    "all remaining values") describes. -/
theorem c4_rest_boundary_sentinel :
    pymatch (.vseq [.binding "a", .bindingRest "rest"]) (.vseq [.vint 1]) =
      .ok [("a", .vint 1), ("rest", .vseq [.sentinel])] ∧
    Val.vseq [.sentinel] ≠ Val.vseq [] :=
  ⟨rfl, by simp⟩

/-- C5, counterexample.  `[BindingRest('r'), Binding('b')]` has no
    trailing RestBinding (its last element is a plain Binding), yet it
    successfully matches the 3-element value `[1, 2, 3]` even though
    the lengths (2 and 3) differ — the non-trailing RestBinding
    consumes the whole remainder. -/
theorem c5_counterexample :
    mvisit (.vseq [.bindingRest "r", .binding "b"])
      (.vseq [.vint 1, .vint 2, .vint 3]) =
      .ok [("r", .vseq [.vint 1, .vint 2, .vint 3])] ∧
    [Val.bindingRest "r", Val.binding "b"].getLast? =
      some (.binding "b") ∧
    (Val.binding "b").isRestB = false ∧
    [Val.bindingRest "r", Val.binding "b"].length ≠
      [Val.vint 1, Val.vint 2, Val.vint 3].length :=
  ⟨rfl, rfl, rfl, by decide⟩

/-- C5, amended.  For a sequence pattern containing no RestBinding at
    all among its elements, the match succeeds iff the value is
    iterable, has exactly as many elements, and the elements match
    pairwise; when the value is iterable, the lengths differ and every
    compared pair matches, the failure is the distinct "different
    lengths" cause. -/
theorem c5_sequence_exact (ps : List Val) (v : Val)
    (h : ∀ p ∈ ps, p.isRestB = false) :
    ((∃ bs, mvisit (.vseq ps) v = .ok bs) ↔
      (v.hasIter = true ∧ ps.length = v.iterList.length ∧
        List.Forall₂ (fun p w => ∃ b, mvisit p w = .ok b) ps v.iterList)) ∧
    (v.hasIter = true → ps.length ≠ v.iterList.length →
      List.Forall₂ (fun p w => ∃ b, mvisit p w = .ok b)
        (ps.take v.iterList.length) (v.iterList.take ps.length) →
      mvisit (.vseq ps) v = .error .lengths) := by
  constructor
  · rw [mvisit_vseq]
    by_cases hit : v.hasIter
    · simp only [hit, if_true, true_and]
      exact mseqRun_isOk_iff ps v.iterList h
    · simp [hit]
  · intro hit hne hfa
    rw [mvisit_vseq, if_pos hit]
    exact mseqRun_length_mismatch ps v.iterList h hne hfa

theorem c5_sequence_exact_witness :
    (∀ p ∈ [Val.binding "a", Val.binding "b", Val.binding "c"],
      p.isRestB = false) ∧
    ((Val.vseq [.vint 1, .vint 2, .vint 3]).hasIter = true ∧
      [Val.binding "a", Val.binding "b", Val.binding "c"].length =
        (Val.vseq [.vint 1, .vint 2, .vint 3]).iterList.length ∧
      List.Forall₂ (fun p w => ∃ b, mvisit p w = .ok b)
        [Val.binding "a", Val.binding "b", Val.binding "c"]
        (Val.vseq [.vint 1, .vint 2, .vint 3]).iterList) :=
  ⟨by decide,
   (c5_sequence_exact [.binding "a", .binding "b", .binding "c"]
     (.vseq [.vint 1, .vint 2, .vint 3]) (by decide)).1.mp
     ⟨[("a", .vint 1), ("b", .vint 2), ("c", .vint 3)], rfl⟩⟩

/-- C6, counterexample.  A plain string pattern is a non-map iterable,
    yet the classifier routes it to the literal handler (the `str`
    check precedes the map-like and iterable checks), not to the
    sequence handler as the claimed priority order would. -/
theorem c6_counterexample :
    classify (.vstr "abc") = .literal ∧
    (Val.vstr "abc").hasIter = true ∧
    (Val.vstr "abc").isMapLike = false ∧
    (Val.vstr "abc").isBindingV = false ∧
    PCat.literal ≠ PCat.sequence :=
  ⟨rfl, rfl, rfl, rfl, by decide⟩

/-- C6, amended.  The classifier assigns every pattern exactly one
    category following the fixed chain Binding, bare Variant class,
    Variant instance, string-as-literal, map-like, iterable, literal:
    a Binding wins over the string check (a Binding is string-like),
    a map-like pattern wins over the iterable check, and a plain
    string is classified literal despite being iterable. -/
theorem c6_classifier_order (p : Val) :
    (classify p = .binding ↔ p.isBindingV = true) ∧
    (classify p = .adtConstructor ↔
      (p.isBindingV = false ∧ p.isADTTypeV = true)) ∧
    (classify p = .adtInstance ↔
      (p.isBindingV = false ∧ p.isADTTypeV = false ∧
        p.isADTInstV = true)) ∧
    (classify p = .mapping ↔
      (p.isBindingV = false ∧ p.isADTTypeV = false ∧
        p.isADTInstV = false ∧ p.isStrV = false ∧ p.isMapLike = true)) ∧
    (classify p = .sequence ↔
      (p.isBindingV = false ∧ p.isADTTypeV = false ∧
        p.isADTInstV = false ∧ p.isStrV = false ∧ p.isMapLike = false ∧
        p.hasIter = true)) ∧
    ((p.isStrV = true ∧ p.isBindingV = false) → classify p = .literal) := by
  cases p <;>
    simp [classify, Val.isBindingV, Val.isADTTypeV, Val.isADTInstV,
      Val.isStrV, Val.isMapLike, Val.hasIter]

theorem c6_classifier_order_witness :
    Val.isBindingV (.binding "x") = true ∧
    classify (.binding "x") = PCat.binding :=
  ⟨rfl, (c6_classifier_order (.binding "x")).1.mpr rfl⟩

/-- C7, counterexample.  For a plain (non-OrderedDict) mapping pattern
    inserted in order `b`, `a`, the extractor yields the names in
    insertion order (`x`, `y`), while the matcher iterates the keys
    sorted and produces the captures in the order `y`, `x`: the orders
    differ. -/
theorem c7_counterexample :
    extractB (.vmap false [("b", .binding "x"), ("a", .binding "y")]) =
      ["x", "y"] ∧
    pymatch (.vmap false [("b", .binding "x"), ("a", .binding "y")])
      (.vmap false [("a", .vint 10), ("b", .vint 20)]) =
      .ok [("y", .vint 10), ("x", .vint 20)] ∧
    [("y", Val.vint 10), ("x", Val.vint 20)].map Prod.fst ≠ ["x", "y"] :=
  ⟨rfl, rfl, by decide⟩

/-- C7, amended.  When the mapping pattern (and every mapping
    subpattern inside it) is an `OrderedDict`, the matcher iterates
    keys in insertion order exactly like the extractor, and the order
    of capture names equals the order of extracted names. -/
theorem c7_ordered_mapping (es : List (String × Val)) (v : Val)
    (bs : Bindings) (hp : PatOk true (.vmap true es)) (hv : WFv v)
    (hm : mvisit (.vmap true es) v = .ok bs) :
    bs.map Prod.fst = extractB (.vmap true es) :=
  (namesOrderAux (szV (.vmap true es))).1 _ v bs le_rfl hp hv hm

theorem c7_ordered_mapping_witness :
    mvisit (.vmap true [("b", .binding "x"), ("a", .binding "y")])
      (.vmap false [("a", .vint 10), ("b", .vint 20)]) =
      .ok [("x", .vint 20), ("y", .vint 10)] ∧
    [("x", Val.vint 20), ("y", Val.vint 10)].map Prod.fst =
      extractB (.vmap true [("b", .binding "x"), ("a", .binding "y")]) :=
  ⟨rfl,
   c7_ordered_mapping [("b", .binding "x"), ("a", .binding "y")]
     (.vmap false [("a", .vint 10), ("b", .vint 20)])
     [("x", .vint 20), ("y", .vint 10)]
     (.vmap _ _ (fun _ => rfl)
       (.cons _ _ (.binding _) (.cons _ _ (.binding _) .nil)))
     (.vmap _ _ (.cons _ _ (.vint _) (.cons _ _ (.vint _) .nil)))
     rfl⟩

/-- C8.  A mapping pattern matches exactly the map-like values that
    contain every pattern key with a matching value at it; keys of the
    value absent from the pattern are ignored. -/
theorem c8_mapping_match (b : Bool) (es : List (String × Val)) (v : Val) :
    (∃ bs, mvisit (.vmap b es) v = .ok bs) ↔
      (v.isMapLike = true ∧ ∀ e ∈ es, v.containsKey e.1 = true ∧
        ∃ cb, mvisit e.2 (v.getVal e.1) = .ok cb) := by
  rw [mvisit_vmap]
  by_cases hml : v.isMapLike
  · simp only [hml, if_true, true_and]
    rw [mentsRun_isOk_iff]
    cases b
    · simp only [Bool.false_eq_true, if_false]
      constructor
      · intro h e he
        exact h e ((sortEntries_perm es).mem_iff.mpr he)
      · intro h e he
        exact h e ((sortEntries_perm es).mem_iff.mp he)
    · simp only [if_true]
  · simp [hml]

theorem c8_mapping_match_witness :
    pymatch (.vmap false [("k", .binding "a")])
      (.vmap false [("k", .vint 1), ("other", .vint 2)]) =
      .ok [("a", .vint 1)] ∧
    ¬ (∃ bs, mvisit (.vmap false [("k", .binding "a")]) (.vmap false []) =
        .ok bs) :=
  ⟨rfl, fun hex => by
    have h := (c8_mapping_match false [("k", .binding "a")]
      (.vmap false [])).mp hex
    have hk := (h.2 ("k", .binding "a") (by simp)).1
    simp [Val.containsKey] at hk⟩

/-- C9, counterexample.  A sequence pattern with two RestBindings (the
    first of which is not in trailing position) is not rejected: the
    match silently succeeds, the first RestBinding consuming the whole
    remainder and the second never being examined.  No
    InvalidPatternUse-style error exists anywhere in the engine. -/
theorem c9_counterexample :
    pymatch (.vseq [.bindingRest "r", .bindingRest "s"])
      (.vseq [.vint 1, .vint 2]) =
      .ok [("r", .vseq [.vint 1, .vint 2])] ∧
    (Val.bindingRest "r").isRestB = true ∧
    (Val.bindingRest "s").isRestB = true :=
  ⟨rfl, rfl, rfl⟩

/-- C9, amended.  A misplaced RestBinding is never detected: as soon
    as the loop reaches it (after a successfully matched prefix), the
    match succeeds, binding the rest name to all remaining value
    elements (padded with the sentinel when the pattern is longer) and
    ignoring every later pattern element. -/
theorem c9_rest_not_detected (ps : List Val) (s : String) (qs vs : List Val)
    (bs : Bindings) (hnr : ∀ p ∈ ps, p.isRestB = false)
    (hlen : ps.length ≤ vs.length)
    (hpre : mzipRun ps (vs.take ps.length) = .ok bs) :
    mvisit (.vseq (ps ++ .bindingRest s :: qs)) (.vseq vs) =
      .ok (bs ++ bindName s (.vseq (padRest (vs.drop ps.length)
        (qs.length + 1)))) := by
  rw [mvisit_vseq,
    if_pos (show (Val.vseq vs).hasIter = true from rfl)]
  exact mseqRun_append_rest ps hnr s qs vs bs hlen hpre

theorem c9_rest_not_detected_witness :
    mzipRun [] [] = Except.ok ([] : Bindings) ∧
    mvisit (.vseq [.bindingRest "r", .binding "b"])
      (.vseq [.vint 1, .vint 2]) =
      .ok [("r", .vseq [.vint 1, .vint 2])] :=
  ⟨rfl, by
    have h := c9_rest_not_detected [] "r" [.binding "b"]
      [.vint 1, .vint 2] [] (by simp) (by simp) rfl
    simpa [padRest, bindName] using h⟩

/-- C10.  A pattern binding the same valid name twice matches
    structurally, but `match` then fails while assembling the
    `CapturedValues` record with namedtuple's duplicate-field-name
    `ValueError` — not with `MatchFailed`, and not with captures; the
    extractor, by contrast, happily reports the duplicated name (no
    earlier rejection). -/
theorem c10_duplicate_names (o : Bool) (p v : Val) (bs : Bindings)
    (hp : PatOk o p) (hv : WFv v)
    (hm : mvisit p v = .ok bs)
    (hids : checkIdentKw (bs.map Prod.fst) = none)
    (hus : ∀ s ∈ bs.map Prod.fst, headUnderscore s = false)
    (hdup : ¬ (bs.map Prod.fst).Nodup) :
    (∃ t, pymatch p v = .error (.valueError (.duplicate t))) ∧
    ¬ (extractB p).Nodup := by
  constructor
  · obtain ⟨t, ht⟩ := checkSeen_dup (bs.map Prod.fst) [] hus hdup
    refine ⟨t, ?_⟩
    simp only [pymatch, hm, namedtupleCheck, hids, ht]
  · intro hnd
    exact hdup
      (((namesPermAux (szV p)).1 o p v bs le_rfl hp hv hm).nodup_iff.mpr hnd)

theorem c10_duplicate_names_witness :
    mvisit (.vseq [.binding "x", .binding "x"]) (.vseq [.vint 1, .vint 2]) =
      .ok [("x", .vint 1), ("x", .vint 2)] ∧
    ((∃ t, pymatch (.vseq [.binding "x", .binding "x"])
        (.vseq [.vint 1, .vint 2]) = .error (.valueError (.duplicate t))) ∧
      ¬ (extractB (.vseq [.binding "x", .binding "x"])).Nodup) :=
  ⟨rfl,
   c10_duplicate_names false (.vseq [.binding "x", .binding "x"])
     (.vseq [.vint 1, .vint 2]) [("x", .vint 1), ("x", .vint 2)]
     (.vseq _ rfl (.cons _ _ (.binding _) (.cons _ _ (.binding _) .nil)))
     (.vseq _ (.cons _ _ (.vint _) (.cons _ _ (.vint _) .nil)))
     rfl rfl (by decide) (by decide)⟩

end ADT
